import Mathlib

/-! SecretManagerCLI: the command-line front end `smcli.go`

A shallow embedding of `smcli.go` and a verification of its parameter parser,
its three commands and its dispatcher.

Conventions of the embedding.

* A Go `string` is a Lean `String` (a sequence of characters).  Every character
  the program inspects (`:`, `,`, `;`, `=`, `-`) is ASCII, so indexing by
  character and indexing by byte select the same positions.
* A Go `map[string]string` is an `Option GoMap`: `none` is the nil map and
  `some m` holds the entries of an allocated map.  The iteration order of a Go
  map is unspecified, so every statement about a map is phrased through
  `mapaccess`.
* The vault (`SecretManager.Vault`) is an external collaborator.  It is a
  parameter of the development: an arbitrary state type with the five
  operations the program calls.
* Effects are recorded in a trace of events carried by `World`.  What the
  packages `flag` and `log` write to standard error is not recorded.
* A process ends with an exit status: 0 when `main` returns, 1 after
  `log.Fatalf` (which calls `os.Exit(1)`, so deferred calls do not run), 2 after
  a panic.
-/

namespace SecretManagerCLI

/-! ## Data model -/

/-- Go values of type `error` that the program and the packages it calls can
produce.  `errorsNew` is `errors.New`; the `flag...` constructors are the
errors built by `flag.FlagSet.failf`, kept structured instead of formatted. -/
inductive GoError where
  | errorsNew (msg : String)
  | flagBadSyntax (arg : String)
  | flagNotDefined (name : String)
  | flagNeedsArgument (name : String)
  | flagInvalidValue (value : String) (name : String) (cause : GoError)
  | flagErrHelp
  deriving DecidableEq, Repr

/-- Entries of an allocated `map[string]string`. -/
abbrev GoMap := List (String × String)

/-- The struct `SecretManager.Secret`, with the four fields the program uses. -/
structure Secret where
  Application : String
  Username : String
  Password : String
  Parameters : Option GoMap
  deriving DecidableEq, Repr

/-- The type `Param`: `type Param struct { key string; value string }`. -/
structure Param where
  key : String
  value : String
  deriving DecidableEq, Repr

/-- The type `Params`: `type Params []Param`. -/
abbrev Params := List Param

/-! ## `regexp.Split` for the separator expression -/

/-- The alternatives of the expression compiled in `Params.Set`,
`:|,|;|,|=`: five single-character literals (the comma occurs twice). -/
def sepAlternatives : List Char := [':', ',', ';', ',', '=']

/-- A match of `:|,|;|,|=` starting at a character: one of the alternatives
is that character.  Every match has width one. -/
def sepMatch (c : Char) : Bool := sepAlternatives.contains c

/-- The method `Regexp.FindAllStringIndex(s, -1)` for the separator expression, scanning
the characters `cs` that start at offset `pos`: the `[start, end]` pairs of the
successive non-overlapping matches, leftmost first. -/
def findAllStringIndex : List Char → Nat → List (Nat × Nat)
  | [], _ => []
  | c :: cs, pos =>
    if sepMatch c then (pos, pos + 1) :: findAllStringIndex cs (pos + 1)
    else findAllStringIndex cs (pos + 1)

/-- The Go slice expression `s[beg:end]` on a string. -/
def slice (s : List Char) (b e : Nat) : List Char := (s.take e).drop b

/-- One iteration of the loop of `Regexp.Split` (with `n < 0`):
`end = match[0]; if match[1] != 0 { strings = append(strings, s[beg:end]) };
beg = match[1]`.  The state is `(strings, beg, end)`. -/
def splitStep (s : List Char) (st : List (List Char) × Nat × Nat) (m : Nat × Nat) :
    List (List Char) × Nat × Nat :=
  let en := m.1
  let strings := if m.2 ≠ 0 then st.1 ++ [slice s st.2.1 en] else st.1
  (strings, m.2, en)

/-- The method `Regexp.Split(s, -1)` for the separator expression, on the characters of
`s`: the empty string gives one empty piece; otherwise the loop over all
matches, then `if end != len(s) { strings = append(strings, s[beg:]) }`. -/
def regexpSplit (s : List Char) : List (List Char) :=
  if s.length = 0 then [[]]
  else
    let st := (findAllStringIndex s 0).foldl (splitStep s) ([], 0, 0)
    if st.2.2 ≠ s.length then st.1 ++ [s.drop st.2.1] else st.1

/-! ## The parameter parser -/

/-- The error of `Params.Set`. -/
def invalidParameter : GoError := GoError.errorsNew "invalid key:value argument for parameter"

/-- The method `func (p *Params) Set(s string) error`: the receiver `p` is the slice
before the call; `.ok` carries the slice after a successful call, `.error` the
returned error (the slice is then unchanged). -/
def Params.Set (p : Params) (s : String) : Except GoError Params :=
  match regexpSplit s.data with
  | [k, v] => .ok (p ++ [{ key := String.mk k, value := String.mk v }])
  | _ => .error invalidParameter

/-! ## Go maps -/

/-- Reading `m[k]` from the entries of an allocated map. -/
def GoMap.lookup : GoMap → String → Option String
  | [], _ => none
  | (k', v') :: m, k => if k' = k then some v' else GoMap.lookup m k

/-- Writing `m[k] = v` into the entries of an allocated map: the entry of an
existing key is replaced, a new key gets a new entry. -/
def GoMap.store : GoMap → String → String → GoMap
  | [], k, v => [(k, v)]
  | (k', v') :: m, k, v => if k' = k then (k, v) :: m else (k', v') :: GoMap.store m k v

/-- The Go runtime's map read: the nil map has no entry for any key. -/
def mapaccess (m : Option GoMap) (k : String) : Option String :=
  match m with
  | none => none
  | some es => GoMap.lookup es k

/-- The Go runtime's map write `m[k] = v`: on the nil map it panics
("assignment to entry in nil map"), which is the result `none`. -/
def mapassign (m : Option GoMap) (k v : String) : Option (Option GoMap) :=
  match m with
  | none => none
  | some es => some (some (GoMap.store es k v))

/-! ## The vault and the world -/

/-- The operations of `SecretManager.Vault` the program calls, over an
arbitrary vault state `σ`.  `Read` returns both results of the Go call, the
secret and the error (`none` is the nil error). -/
structure Vault (σ : Type) where
  Open : σ → Option GoError × σ
  Close : σ → σ
  Read : String → σ → (Secret × Option GoError) × σ
  Upsert : Secret → σ → Option GoError × σ
  Delete : String → σ → Option GoError × σ

/-- What the process does that is visible outside it, in order. -/
inductive Event where
  | vaultOpen
  | vaultClose
  | vaultRead (application : String)
  | vaultUpsert (secret : Secret)
  | vaultDelete (application : String)
  | cmdInit (name : String)
  | cmdRun (name : String)
  | stdout (text : String)
  | logFatal (text : String) (err : GoError)
  deriving DecidableEq, Repr

/-- The state threaded through the program: the vault and the events so far. -/
structure World (σ : Type) where
  vault : σ
  trace : List Event

/-- Append an event to the trace. -/
def World.emit {σ : Type} (w : World σ) (e : Event) : World σ :=
  { w with trace := w.trace ++ [e] }

/-- The call `vault.Open()`. -/
def callOpen {σ : Type} (v : Vault σ) (w : World σ) : Option GoError × World σ :=
  let r := v.Open w.vault
  (r.1, { vault := r.2, trace := w.trace ++ [Event.vaultOpen] })

/-- The call `vault.Close()`. -/
def callClose {σ : Type} (v : Vault σ) (w : World σ) : World σ :=
  { vault := v.Close w.vault, trace := w.trace ++ [Event.vaultClose] }

/-- The call `vault.Read(application)`. -/
def callRead {σ : Type} (v : Vault σ) (application : String) (w : World σ) :
    (Secret × Option GoError) × World σ :=
  let r := v.Read application w.vault
  (r.1, { vault := r.2, trace := w.trace ++ [Event.vaultRead application] })

/-- The call `vault.Upsert(secret)`. -/
def callUpsert {σ : Type} (v : Vault σ) (secret : Secret) (w : World σ) :
    Option GoError × World σ :=
  let r := v.Upsert secret w.vault
  (r.1, { vault := r.2, trace := w.trace ++ [Event.vaultUpsert secret] })

/-- The call `vault.Delete(application)`. -/
def callDelete {σ : Type} (v : Vault σ) (application : String) (w : World σ) :
    Option GoError × World σ :=
  let r := v.Delete application w.vault
  (r.1, { vault := r.2, trace := w.trace ++ [Event.vaultDelete application] })

/-! ## The commands -/

/-- The struct `ReadCommand`: the name of its flag set and the field its flag is bound to. -/
structure ReadCommand where
  fsName : String
  application : String
  deriving DecidableEq, Repr

/-- The struct `DeleteCommand`. -/
structure DeleteCommand where
  fsName : String
  application : String
  deriving DecidableEq, Repr

/-- The struct `UpsertCommand`. -/
structure UpsertCommand where
  fsName : String
  application : String
  username : String
  password : String
  parameters : Params
  deriving DecidableEq, Repr

/-- How a call of `Run` ends: it returns an `error` (`none` is nil), or it
panics. -/
inductive RunResult where
  | returned (err : Option GoError)
  | panicked (msg : String)
  deriving DecidableEq, Repr

/-- The method `func (r *ReadCommand) Run(vault) error`.  `fmtV` is the `%v` rendering of
the `Parameters` map by package `fmt`. -/
def ReadCommand.Run {σ : Type} (fmtV : Option GoMap → String) (v : Vault σ)
    (r : ReadCommand) (w : World σ) : RunResult × World σ :=
  let rd := callRead v r.application w
  let sRead := rd.1.1
  let err := rd.1.2
  let w1 := rd.2
  if err = none then
    let w2 := w1.emit (Event.stdout ("Username -> " ++ sRead.Username ++ "\n"))
    let w3 := w2.emit (Event.stdout ("Password -> " ++ sRead.Password ++ "\n"))
    let w4 := w3.emit (Event.stdout ("Params -> " ++ fmtV sRead.Parameters ++ "\n"))
    (RunResult.returned none, w4)
  else
    (RunResult.returned err, w1)

/-- The loop `for _, item := range u.parameters { m[item.key] = item.value }`;
`none` when an assignment panics. -/
def rangeAssign : Option GoMap → Params → Option (Option GoMap)
  | m, [] => some m
  | m, item :: rest =>
    match mapassign m item.key item.value with
    | none => none
    | some m' => rangeAssign m' rest

/-- The method `func (u *UpsertCommand) Run(vault) error`: the branch on the
outcome of `vault.Read`, the allocation of the map, the merge loop and the
call of `vault.Upsert`, whose result is dropped. -/
def UpsertCommand.Run {σ : Type} (v : Vault σ) (u : UpsertCommand) (w : World σ) :
    RunResult × World σ :=
  let rd := callRead v u.application w
  let read := rd.1.1
  let err := rd.1.2
  let secret0 : Secret :=
    if err = none then
      let s1 := if u.username ≠ "" then { read with Username := u.username } else read
      if u.password ≠ "" then { s1 with Password := u.password } else s1
    else
      { Application := u.application, Username := u.username, Password := u.password,
        Parameters := none }
  let secret1 : Secret :=
    if secret0.Parameters = none ∧ u.parameters.length > 0 then
      { secret0 with Parameters := some [] }
    else secret0
  match rangeAssign secret1.Parameters u.parameters with
  | none => (RunResult.panicked "assignment to entry in nil map", rd.2)
  | some m =>
    let up := callUpsert v { secret1 with Parameters := m } rd.2
    (RunResult.returned none, up.2)

/-- The method `func (d *DeleteCommand) Run(vault) error`. -/
def DeleteCommand.Run {σ : Type} (v : Vault σ) (d : DeleteCommand) (w : World σ) :
    RunResult × World σ :=
  let r := callDelete v d.application w
  (RunResult.returned r.1, r.2)

/-! ## Package `flag` -/

/-- A flag registered in a flag set whose values live in a command `τ`: its
name and the `Set` method of its `flag.Value`. -/
structure Flag (τ : Type) where
  name : String
  set : String → τ → Except GoError τ

/-- The loop of `parseOne` that looks for `=` in `name`, from index `i`
(`for i := 1; i < len(name); i++`): the index of the first `=` found. -/
def findEquals : List Char → Nat → Option Nat
  | [], _ => none
  | c :: cs, i => if c = '=' then some i else findEquals cs (i + 1)

/-- The method `flag.FlagSet.parseOne` for a flag set in which no flag is
boolean.  The result is `(seen, err)`, the arguments still to parse and the
command. -/
def parseOne {τ : Type} (formal : List (Flag τ)) (args : List String) (c : τ) :
    (Bool × Option GoError) × List String × τ :=
  match args with
  | [] => ((false, none), args, c)
  | s :: rest =>
    let sd := s.data
    if sd.length < 2 ∨ sd.head? ≠ some '-' then ((false, none), args, c)
    else
      let numMinuses := if sd.get? 1 = some '-' then 2 else 1
      if numMinuses = 2 ∧ sd.length = 2 then ((false, none), rest, c)
      else
        let name0 := sd.drop numMinuses
        if name0.length = 0 ∨ name0.head? = some '-' ∨ name0.head? = some '=' then
          ((false, some (GoError.flagBadSyntax s)), args, c)
        else
          let eq := findEquals (name0.drop 1) 1
          let hasValue0 := eq.isSome
          let value0 := match eq with
            | some i => String.mk (name0.drop (i + 1))
            | none => ""
          let name := match eq with
            | some i => String.mk (name0.take i)
            | none => String.mk name0
          match formal.find? (fun f => f.name = name) with
          | none =>
            if name = "help" ∨ name = "h" then ((false, some GoError.flagErrHelp), rest, c)
            else ((false, some (GoError.flagNotDefined name)), rest, c)
          | some flag =>
            let takeNext := !hasValue0 ∧ rest.length > 0
            let hasValue := if takeNext then true else hasValue0
            let value := if takeNext then rest.headD "" else value0
            let rest1 := if takeNext then rest.tail else rest
            if !hasValue then ((false, some (GoError.flagNeedsArgument name)), rest1, c)
            else
              match flag.set value c with
              | .error e => ((false, some (GoError.flagInvalidValue value name e)), rest1, c)
              | .ok c1 => ((true, none), rest1, c1)

/-- The loop of `flag.FlagSet.Parse` under `flag.ContinueOnError`, bounded by
`fuel` iterations: `none` when the bound is reached, else the returned error
and the command. -/
def parseLoop {τ : Type} (formal : List (Flag τ)) :
    Nat → List String → τ → Option (Option GoError × τ)
  | 0, _, _ => none
  | fuel + 1, args, c =>
    let r := parseOne formal args c
    if r.1.1 then parseLoop formal fuel r.2.1 r.2.2
    else some (r.1.2, r.2.2)

/-- The method `flag.FlagSet.Parse`.  Every iteration that continues consumes
an argument, so `args.length + 1` iterations are enough (`parseLoop_total`). -/
def FlagSet.Parse {τ : Type} (formal : List (Flag τ)) (args : List String) (c : τ) :
    Option GoError × τ :=
  (parseLoop formal (args.length + 1) args c).getD (none, c)

/-- The flag of `readCmd`: `StringVar(&readCmd.application, "application", ...)`. -/
def readFlags : List (Flag ReadCommand) :=
  [{ name := "application", set := fun s c => .ok { c with application := s } }]

/-- The flag of `deleteCmd`. -/
def deleteFlags : List (Flag DeleteCommand) :=
  [{ name := "application", set := fun s c => .ok { c with application := s } }]

/-- The flags of `upsertCmd`: three `StringVar` and
`Var(&upsertCmd.parameters, "parameter", ...)`, whose `Set` is `Params.Set`. -/
def upsertFlags : List (Flag UpsertCommand) :=
  [{ name := "application", set := fun s c => .ok { c with application := s } },
   { name := "username", set := fun s c => .ok { c with username := s } },
   { name := "password", set := fun s c => .ok { c with password := s } },
   { name := "parameter", set := fun s c =>
      match Params.Set c.parameters s with
      | .ok p => .ok { c with parameters := p }
      | .error e => .error e }]

/-- The method `func (r *ReadCommand) Init(args []string) error`. -/
def ReadCommand.Init (r : ReadCommand) (args : List String) : Option GoError × ReadCommand :=
  FlagSet.Parse readFlags args r

/-- The method `func (u *UpsertCommand) Init(args []string) error`. -/
def UpsertCommand.Init (u : UpsertCommand) (args : List String) :
    Option GoError × UpsertCommand :=
  FlagSet.Parse upsertFlags args u

/-- The method `func (d *DeleteCommand) Init(args []string) error`. -/
def DeleteCommand.Init (d : DeleteCommand) (args : List String) :
    Option GoError × DeleteCommand :=
  FlagSet.Parse deleteFlags args d

/-! ## The dispatcher -/

/-- The values of the interface `Runner` that `main` builds. -/
inductive Runner where
  | read (r : ReadCommand)
  | upsert (u : UpsertCommand)
  | delete (d : DeleteCommand)
  deriving DecidableEq, Repr

/-- The method `Name()` of each command: the name of its flag set. -/
def Runner.Name : Runner → String
  | .read r => r.fsName
  | .upsert u => u.fsName
  | .delete d => d.fsName

/-- The method `Init` of each command. -/
def Runner.Init : Runner → List String → Option GoError × Runner
  | .read r, args => let x := r.Init args; (x.1, .read x.2)
  | .upsert u, args => let x := u.Init args; (x.1, .upsert x.2)
  | .delete d, args => let x := d.Init args; (x.1, .delete x.2)

/-- The method `Run` of each command. -/
def Runner.Run {σ : Type} (fmtV : Option GoMap → String) (v : Vault σ) :
    Runner → World σ → RunResult × World σ
  | .read r, w => r.Run fmtV v w
  | .upsert u, w => u.Run v w
  | .delete d, w => d.Run v w

/-- The command `readCmd` as `main` builds it: flag set `read`, the field at
its default. -/
def readCmd : ReadCommand := { fsName := "read", application := "" }

/-- The command `deleteCmd` as `main` builds it. -/
def deleteCmd : DeleteCommand := { fsName := "delete", application := "" }

/-- The command `upsertCmd` as `main` builds it: the three strings at their
default and no parameter. -/
def upsertCmd : UpsertCommand :=
  { fsName := "upsert", application := "", username := "", password := "", parameters := [] }

/-- The slice `cmds` of `main`, in its order. -/
def cmds : List Runner := [Runner.read readCmd, Runner.upsert upsertCmd, Runner.delete deleteCmd]

/-- The function `unicode.ToUpper`: the ASCII range is decided in the function
itself (`'a' <= r && r <= 'z'` gives `r - ('a' - 'A')`), every other rune goes
through the case tables of package `unicode`, here the parameter `caseTable`. -/
def unicodeToUpper (caseTable : Char → Char) (r : Char) : Char :=
  if r.toNat ≤ 127 then
    if 'a'.toNat ≤ r.toNat ∧ r.toNat ≤ 'z'.toNat then Char.ofNat (r.toNat - 32) else r
  else caseTable r

/-- The function `strings.ToUpper`: `unicode.ToUpper` on every rune (the fast
path for ASCII-only strings computes the same string). -/
def stringsToUpper (caseTable : Char → Char) (s : String) : String :=
  String.mk (s.data.map (unicodeToUpper caseTable))

/-- How the process ends: its exit status and the final world. -/
structure Outcome (σ : Type) where
  status : Nat
  world : World σ

/-- The loop `for _, cmd := range cmds` of `main`.  The result of `Init` is
dropped; an error of `Run` goes to `log.Fatalf`, which exits with status 1
without running deferred calls; a panic unwinds through the deferred
`vault.Close()` and exits with status 2; `break` and the end of the loop
return from `main`, which runs the deferred `vault.Close()` and exits 0. -/
def dispatch {σ : Type} (caseTable : Char → Char) (fmtV : Option GoMap → String)
    (v : Vault σ) (subcommand : String) (rest : List String) :
    List Runner → World σ → Outcome σ
  | [], w => { status := 0, world := callClose v w }
  | cmd :: more, w =>
    if stringsToUpper caseTable cmd.Name = stringsToUpper caseTable subcommand then
      let ini := cmd.Init rest
      let w1 := w.emit (Event.cmdInit cmd.Name)
      let run := Runner.Run fmtV v ini.2 (w1.emit (Event.cmdRun cmd.Name))
      match run.1 with
      | RunResult.returned (some err) =>
        { status := 1,
          world := run.2.emit (Event.logFatal "Error executing command" err) }
      | RunResult.returned none => { status := 0, world := callClose v run.2 }
      | RunResult.panicked _ => { status := 2, world := callClose v run.2 }
    else dispatch caseTable fmtV v subcommand rest more w

/-- The function `main` on the process arguments `osArgs` (`os.Args`).
`os.Args[1]` panics when there is no subcommand (status 2, nothing deferred
yet); a failing `vault.Open()` goes to `log.Fatalf` (status 1). -/
def main {σ : Type} (caseTable : Char → Char) (fmtV : Option GoMap → String)
    (v : Vault σ) (osArgs : List String) (w : World σ) : Outcome σ :=
  match osArgs with
  | [] => { status := 2, world := w }
  | [_] => { status := 2, world := w }
  | _ :: subcommand :: rest =>
    let op := callOpen v w
    match op.1 with
    | some err => { status := 1, world := op.2.emit (Event.logFatal "Error opening vault" err) }
    | none => dispatch caseTable fmtV v subcommand rest cmds op.2

/-! ## Vaults used to run the program on concrete inputs -/

/-- The method `Upsert` of an in-memory vault: replace the secret of the same
application or add one. -/
def memUpsert (s : Secret) : List Secret → List Secret
  | [] => [s]
  | t :: ts => if t.Application = s.Application then s :: ts else t :: memUpsert s ts

/-- An in-memory vault: its state is the list of stored secrets; `Read` and
`Delete` of an absent application fail with "not found". -/
def memVault : Vault (List Secret) where
  Open := fun st => (none, st)
  Close := fun st => st
  Read := fun app st =>
    match st.find? (fun t => t.Application = app) with
    | some t => ((t, none), st)
    | none => (({ Application := "", Username := "", Password := "", Parameters := none },
                some (GoError.errorsNew "not found")), st)
  Upsert := fun s st => (none, memUpsert s st)
  Delete := fun app st =>
    if st.any (fun t => t.Application = app) then
      (none, st.filter (fun t => t.Application ≠ app))
    else (some (GoError.errorsNew "not found"), st)

/-- An in-memory vault that cannot be opened. -/
def closedVault : Vault (List Secret) :=
  { memVault with Open := fun st => (some (GoError.errorsNew "vault unavailable"), st) }

/-- A rendering of a map, standing for `%v` on concrete runs. -/
def showMap (m : Option GoMap) : String :=
  match m with
  | none => "map[]"
  | some es => "map[" ++ " ".intercalate (es.map (fun e => e.1 ++ ":" ++ e.2)) ++ "]"

/-- The secret of the example of the specification. -/
def app1 : Secret :=
  { Application := "app1", Username := "u1", Password := "p1",
    Parameters := some [("env", "prod")] }

/-! ## Notions used to state the properties -/

/-- The separator set named by the specification: `:`, `,`, `;`, `=`. -/
def isSeparator (c : Char) : Bool := c == ':' || c == ',' || c == ';' || c == '='

/-- The closed form of the allocation and the merge loop of
`UpsertCommand.Run`: with no parameter the map is left as it is (nil stays
nil); otherwise every parameter is stored, in order, into the map (a nil map
being replaced by a fresh one). -/
def mergeParams (m : Option GoMap) (ps : Params) : Option GoMap :=
  if ps = [] then m
  else some (ps.foldl (fun es q => GoMap.store es q.key q.value) (m.getD []))

/-- The secret `UpsertCommand.Run` starts its merge from: the stored secret
with the non-empty credentials of the command written over it when
`vault.Read` succeeded, a fresh secret otherwise. -/
def baseSecret (u : UpsertCommand) (read : Secret) (err : Option GoError) : Secret :=
  match err with
  | none =>
    { Application := read.Application,
      Username := if u.username ≠ "" then u.username else read.Username,
      Password := if u.password ≠ "" then u.password else read.Password,
      Parameters := read.Parameters }
  | some _ =>
    { Application := u.application, Username := u.username, Password := u.password,
      Parameters := none }

/-- An `UpsertCommand` after its flags were parsed, for concrete runs. -/
def upsertOf (application username password : String) (parameters : Params) : UpsertCommand :=
  { fsName := "upsert", application := application, username := username,
    password := password, parameters := parameters }

/-- An in-memory vault whose `Read` and `Upsert` always fail. -/
def failingVault : Vault (List Secret) :=
  { memVault with
    Read := fun _ st =>
      (({ Application := "", Username := "", Password := "", Parameters := none },
        some (GoError.errorsNew "read failed")), st)
    Upsert := fun _ st => (some (GoError.errorsNew "upsert failed"), st) }

/-- The event is the start of some command's `Init`. -/
def Event.isInit : Event → Bool
  | .cmdInit _ => true
  | _ => false

/-- The event is the start of some command's `Run`. -/
def Event.isRun : Event → Bool
  | .cmdRun _ => true
  | _ => false

/-- The names of the three commands. -/
def commandNames : List String := ["read", "upsert", "delete"]

/-- The world in which the `Run` of the selected command `name` starts: the
vault after a successful `vault.Open`, and the trace extended by the open, the
start of the command's `Init` and the start of its `Run`. -/
def started {σ : Type} (v : Vault σ) (w : World σ) (name : String) : World σ :=
  (({ vault := (v.Open w.vault).2, trace := w.trace ++ [Event.vaultOpen] } : World σ).emit
    (Event.cmdInit name)).emit (Event.cmdRun name)

/-- The pieces of `cs` between separator characters, `acc` being the piece
under construction. -/
def pieces : List Char → List Char → List (List Char)
  | [], acc => [acc]
  | c :: cs, acc => if sepMatch c then acc :: pieces cs [] else pieces cs (acc ++ [c])

/-! ## The parameter parser: `regexp.Split` yields the pieces between separators -/

theorem sepMatch_eq_isSeparator (c : Char) : sepMatch c = isSeparator c := by
  rw [Bool.eq_iff_iff]
  simp only [sepMatch, sepAlternatives, isSeparator, List.contains_cons, List.contains_nil,
    Bool.or_eq_true, beq_iff_eq, Bool.false_eq_true, or_false]
  tauto

theorem slice_self (s : List Char) (n : Nat) : slice s n n = [] := by
  simp [slice, List.drop_take]

theorem slice_snoc (pre cs : List Char) (c : Char) (b : Nat) (hb : b ≤ pre.length) :
    slice (pre ++ c :: cs) b (pre.length + 1) = slice (pre ++ c :: cs) b pre.length ++ [c] := by
  have h1 : (pre ++ c :: cs).take (pre.length + 1) = pre ++ [c] := by
    have : pre ++ c :: cs = (pre ++ [c]) ++ cs := by simp
    rw [this, List.take_left' (by simp)]
  have h2 : (pre ++ c :: cs).take pre.length = pre := List.take_left' rfl
  simp only [slice, h1, h2]
  exact List.drop_append_of_le_length hb

theorem slice_full (s : List Char) (b : Nat) : slice s b s.length = s.drop b := by
  simp [slice]

/-- The loop of `regexp.Split` followed by its last append, started in the
middle of the string, appends the pieces of the rest of the string. -/
theorem split_loop (s : List Char) :
    ∀ (cs pre : List Char) (strs : List (List Char)) (b en : Nat),
      s = pre ++ cs → b ≤ pre.length → en ≠ s.length →
      (let st := (findAllStringIndex cs pre.length).foldl (splitStep s) (strs, b, en)
       if st.2.2 ≠ s.length then st.1 ++ [s.drop st.2.1] else st.1)
        = strs ++ pieces cs (slice s b pre.length) := by
  intro cs
  induction cs with
  | nil =>
    intro pre strs b en hs hb hen
    have hlen : pre.length = s.length := by rw [hs]; simp
    simp only [findAllStringIndex, List.foldl_nil, pieces, hlen, slice_full]
    simp [hen]
  | cons c cs ih =>
    intro pre strs b en hs hb hen
    have hs1 : s = (pre ++ [c]) ++ cs := by rw [hs]; simp
    have hl1 : (pre ++ [c]).length = pre.length + 1 := by simp
    have hlt : pre.length ≠ s.length := by rw [hs]; simp
    by_cases hc : sepMatch c = true
    · have := ih (pre ++ [c]) (strs ++ [slice s b pre.length]) (pre.length + 1) pre.length
        hs1 (by simp) hlt
      simp only [hl1] at this
      simp only [findAllStringIndex, hc, if_true, List.foldl_cons, pieces]
      simp only [splitStep, ne_eq, Nat.add_one_ne_zero, not_false_eq_true, if_true]
      rw [this, slice_self]
      simp
    · have := ih (pre ++ [c]) strs b en hs1 (by simp; omega) hen
      simp only [hl1] at this
      simp only [findAllStringIndex, hc, pieces]
      simp only [Bool.false_eq_true, if_false]
      rw [this]
      congr 2
      rw [hs]
      exact slice_snoc pre cs c b hb

theorem regexpSplit_eq_pieces (s : List Char) : regexpSplit s = pieces s [] := by
  cases s with
  | nil => simp [regexpSplit, pieces]
  | cons c cs =>
    have h := split_loop (c :: cs) (c :: cs) [] [] 0 0 rfl (by simp) (by simp)
    simp only [List.length_nil, List.nil_append] at h
    have h0 : slice (c :: cs) 0 0 = [] := slice_self _ 0
    rw [h0] at h
    rw [← h]
    simp [regexpSplit]

theorem pieces_length (cs : List Char) :
    ∀ acc : List Char, (pieces cs acc).length = cs.countP isSeparator + 1 := by
  induction cs with
  | nil => intro acc; simp [pieces]
  | cons c cs ih =>
    intro acc
    by_cases hc : isSeparator c = true
    · simp [pieces, sepMatch_eq_isSeparator, hc, ih, List.countP_cons]
    · simp [pieces, sepMatch_eq_isSeparator, hc, ih, List.countP_cons]

theorem pieces_no_sep (cs : List Char) :
    ∀ acc : List Char, cs.countP isSeparator = 0 → pieces cs acc = [acc ++ cs] := by
  induction cs with
  | nil => intro acc _; simp [pieces]
  | cons c cs ih =>
    intro acc h
    by_cases hc : isSeparator c = true
    · simp [List.countP_cons, hc] at h
    · simp only [List.countP_cons, hc, Bool.false_eq_true, if_false, Nat.add_zero] at h
      simp [pieces, sepMatch_eq_isSeparator, hc, ih _ h]

theorem pieces_one_sep (k v : List Char) (c : Char) (hc : isSeparator c = true)
    (hv : v.countP isSeparator = 0) :
    ∀ acc : List Char, k.countP isSeparator = 0 → pieces (k ++ c :: v) acc = [acc ++ k, v] := by
  induction k with
  | nil => intro acc _; simp [pieces, sepMatch_eq_isSeparator, hc, pieces_no_sep v [] hv]
  | cons d k ih =>
    intro acc h
    by_cases hd : isSeparator d = true
    · simp [List.countP_cons, hd] at h
    · simp only [List.countP_cons, hd, Bool.false_eq_true, if_false, Nat.add_zero] at h
      simp [pieces, sepMatch_eq_isSeparator, hd, ih _ h]

theorem split_of_count_one (cs : List Char) (h : cs.countP isSeparator = 1) :
    ∃ k c v, cs = k ++ c :: v ∧ isSeparator c = true ∧
      k.countP isSeparator = 0 ∧ v.countP isSeparator = 0 := by
  induction cs with
  | nil => simp at h
  | cons d cs ih =>
    by_cases hd : isSeparator d = true
    · refine ⟨[], d, cs, rfl, hd, rfl, ?_⟩
      simpa [List.countP_cons, hd] using h
    · simp only [List.countP_cons, hd, Bool.false_eq_true, if_false, Nat.add_zero] at h
      obtain ⟨k, c, v, hcs, hc, hk, hv⟩ := ih h
      refine ⟨d :: k, c, v, by simp [hcs], hc, ?_, hv⟩
      simp [List.countP_cons, hd, hk]

/-- Counting the separators of `k ++ c :: v`. -/
theorem count_split (k v : List Char) (c : Char) (hc : isSeparator c = true)
    (h : (k ++ c :: v).countP isSeparator = 1) :
    k.countP isSeparator = 0 ∧ v.countP isSeparator = 0 := by
  simp only [List.countP_append, List.countP_cons, hc, if_true] at h
  omega

/-- The method `Params.Set` on a string with exactly one separator. -/
theorem Set_one_sep (p : Params) (s : String) (k v : List Char) (c : Char)
    (hs : s.data = k ++ c :: v) (hc : isSeparator c = true)
    (h : s.data.countP isSeparator = 1) :
    Params.Set p s = .ok (p ++ [{ key := String.mk k, value := String.mk v }]) := by
  rw [hs] at h
  obtain ⟨hk, hv⟩ := count_split k v c hc h
  have hp := pieces_one_sep k v c hc hv [] hk
  simp only [Params.Set, regexpSplit_eq_pieces, hs, hp, List.nil_append]

/-- The method `Params.Set` on a string whose separator count is not one. -/
theorem Set_not_one_sep (p : Params) (s : String) (h : s.data.countP isSeparator ≠ 1) :
    Params.Set p s = .error invalidParameter := by
  have hl := pieces_length s.data []
  simp only [Params.Set, regexpSplit_eq_pieces]
  split
  · rename_i k v heq
    rw [heq] at hl
    simp at hl
    omega
  · rfl

theorem data_of_split (s k v : String) (c : Char) (h : s = k ++ String.singleton c ++ v) :
    s.data = k.data ++ c :: v.data := by
  rw [h]
  simp [String.data_append, String.singleton]

/-- Claim C1: `Params.Set` is characterised by the number of separator
characters of its argument.  It succeeds exactly when the argument holds one
character of the set `:`, `,`, `;`, `=`; whenever the argument is
`k ++ c ++ v` with `c` that one separator, the result is the receiver with
`Param{key: k, value: v}` appended at the end, and a succeeding argument always
has that shape; with zero or several separators it returns the error. -/
theorem Params_Set_characterised (p : Params) (s : String) :
    ((∃ p', Params.Set p s = .ok p') ↔ s.data.countP isSeparator = 1) ∧
    (∀ (k v : String) (c : Char), isSeparator c = true →
      s = k ++ String.singleton c ++ v → s.data.countP isSeparator = 1 →
      Params.Set p s = .ok (p ++ [{ key := k, value := v }])) ∧
    (s.data.countP isSeparator = 1 →
      ∃ (k v : String) (c : Char), isSeparator c = true ∧
        s = k ++ String.singleton c ++ v ∧
        Params.Set p s = .ok (p ++ [{ key := k, value := v }])) ∧
    (s.data.countP isSeparator ≠ 1 → Params.Set p s = .error invalidParameter) := by
  have hsplit : ∀ (k v : String) (c : Char), isSeparator c = true →
      s = k ++ String.singleton c ++ v → s.data.countP isSeparator = 1 →
      Params.Set p s = .ok (p ++ [{ key := k, value := v }]) := by
    intro k v c hc hs h
    exact Set_one_sep p s k.data v.data c (data_of_split s k v c hs) hc h
  have hex : s.data.countP isSeparator = 1 →
      ∃ (k v : String) (c : Char), isSeparator c = true ∧
        s = k ++ String.singleton c ++ v ∧
        Params.Set p s = .ok (p ++ [{ key := k, value := v }]) := by
    intro h
    obtain ⟨k, c, v, hcs, hc, _, _⟩ := split_of_count_one s.data h
    have hs : s = String.mk k ++ String.singleton c ++ String.mk v := by
      apply String.ext
      simp [String.data_append, String.singleton, hcs]
    exact ⟨String.mk k, String.mk v, c, hc, hs, hsplit _ _ c hc hs h⟩
  refine ⟨⟨?_, ?_⟩, hsplit, hex, Set_not_one_sep p s⟩
  · rintro ⟨p', hp'⟩
    by_contra hne
    rw [Set_not_one_sep p s hne] at hp'
    cases hp'
  · intro h
    obtain ⟨k, v, c, _, _, hset⟩ := hex h
    exact ⟨_, hset⟩

/-- Witness of C1: `env=staging` has one separator and is parsed into the
key `env` and the value `staging`. -/
theorem Params_Set_characterised_witness :
    Params.Set [] "env=staging" = .ok [{ key := "env", value := "staging" }] :=
  (Params_Set_characterised [] "env=staging").2.1 "env" "staging" '=' rfl rfl (by decide)

/-- Counterexample to C5: `Params.Set` accepts `a:`, `=b` and `:`, and
appends a Param whose value, key, or both are empty. -/
theorem Params_Set_accepts_empty_parts :
    Params.Set [] "a:" = .ok [{ key := "a", value := "" }] ∧
    Params.Set [] "=b" = .ok [{ key := "", value := "b" }] ∧
    Params.Set [] ":" = .ok [{ key := "", value := "" }] :=
  ⟨rfl, rfl, rfl⟩

/-- Claim C5, amended: every Param produced by the parser has a key and a
value free of separator characters, and either may be empty.  When `Set`
succeeds on `s`, it appends one Param, `s` is its key, one separator and its
value; the key is empty exactly when `s` begins with a separator and the value
is empty exactly when `s` ends with one. -/
theorem Params_Set_parts (p : Params) (s : String) (p' : Params)
    (h : Params.Set p s = .ok p') :
    ∃ (k v : String) (c : Char), p' = p ++ [{ key := k, value := v }] ∧
      isSeparator c = true ∧ s = k ++ String.singleton c ++ v ∧
      k.data.countP isSeparator = 0 ∧ v.data.countP isSeparator = 0 ∧
      (k = "" ↔ ∃ d, s.data.head? = some d ∧ isSeparator d = true) ∧
      (v = "" ↔ ∃ d, s.data.getLast? = some d ∧ isSeparator d = true) := by
  have hcount : s.data.countP isSeparator = 1 := by
    by_contra hne
    rw [Set_not_one_sep p s hne] at h
    cases h
  obtain ⟨k, c, v, hcs, hc, hk, hv⟩ := split_of_count_one s.data hcount
  have hs : s = String.mk k ++ String.singleton c ++ String.mk v := by
    apply String.ext
    simp [String.data_append, String.singleton, hcs]
  have hset := Set_one_sep p s k v c hcs hc hcount
  rw [hset] at h
  injection h with h
  refine ⟨String.mk k, String.mk v, c, h.symm, hc, hs, hk, hv, ?_, ?_⟩
  · rw [hcs]
    constructor
    · intro hk0
      have : k = [] := by simpa using congrArg String.data hk0
      subst this
      exact ⟨c, rfl, hc⟩
    · rintro ⟨d, hd, hdsep⟩
      cases k with
      | nil => rfl
      | cons e k =>
        simp only [List.cons_append, List.head?_cons, Option.some.injEq] at hd
        subst hd
        simp [List.countP_cons, hdsep] at hk
  · rw [hcs]
    constructor
    · intro hv0
      have : v = [] := by simpa using congrArg String.data hv0
      subst this
      exact ⟨c, by simp, hc⟩
    · rintro ⟨d, hd, hdsep⟩
      rcases List.eq_nil_or_concat v with hnil | ⟨v0, e, hve⟩
      · rw [hnil]
      · exfalso
        rw [hve, List.concat_eq_append] at hd hv
        have hd' : e = d := by
          have : k ++ c :: (v0 ++ [e]) = (k ++ c :: v0) ++ [e] := by simp
          rw [this, List.getLast?_append] at hd
          simpa using hd
        subst hd'
        simp [List.countP_append, hdsep] at hv

/-- Witness of C5 as amended: `Set` succeeds on `a:` and the value is empty. -/
theorem Params_Set_parts_witness :
    ∃ (k v : String) (c : Char),
      [({ key := "a", value := "" } : Param)] = [] ++ [{ key := k, value := v }] ∧
      isSeparator c = true ∧ "a:" = k ++ String.singleton c ++ v ∧
      k.data.countP isSeparator = 0 ∧ v.data.countP isSeparator = 0 ∧
      (k = "" ↔ ∃ d, "a:".data.head? = some d ∧ isSeparator d = true) ∧
      (v = "" ↔ ∃ d, "a:".data.getLast? = some d ∧ isSeparator d = true) :=
  Params_Set_parts [] "a:" [{ key := "a", value := "" }] rfl

/-! ## Maps and the merge loop -/

theorem lookup_store (m : GoMap) (k v k' : String) :
    GoMap.lookup (GoMap.store m k v) k' = if k = k' then some v else GoMap.lookup m k' := by
  induction m with
  | nil => simp [GoMap.store, GoMap.lookup]
  | cons e m ih =>
    obtain ⟨a, b⟩ := e
    by_cases h1 : a = k
    · subst h1
      by_cases h2 : a = k' <;> simp [GoMap.store, GoMap.lookup, h2]
    · by_cases h2 : a = k'
      · subst h2
        have h3 : ¬ k = a := fun h => h1 h.symm
        simp [GoMap.store, GoMap.lookup, h1, h3]
      · simp [GoMap.store, GoMap.lookup, h1, h2, ih]

/-- Storing parameters of other keys leaves the entry of `k` as it was. -/
theorem lookup_foldl_other (k : String) (ps : Params) :
    ∀ es : GoMap, (∀ q ∈ ps, q.key ≠ k) →
      GoMap.lookup (ps.foldl (fun es q => GoMap.store es q.key q.value) es) k
        = GoMap.lookup es k := by
  induction ps with
  | nil => intro es _; rfl
  | cons q ps ih =>
    intro es h
    have hq : q.key ≠ k := h q (List.mem_cons_self _ _)
    rw [List.foldl_cons, ih _ (fun r hr => h r (List.mem_cons_of_mem _ hr)), lookup_store]
    simp [hq]

/-- After storing the parameters, `k` holds the value of its last occurrence. -/
theorem lookup_foldl_last (k val : String) (pre post : Params) (es : GoMap)
    (hpost : ∀ q ∈ post, q.key ≠ k) :
    GoMap.lookup ((pre ++ { key := k, value := val } :: post).foldl
      (fun es q => GoMap.store es q.key q.value) es) k = some val := by
  rw [List.foldl_append, List.foldl_cons, lookup_foldl_other k post _ hpost, lookup_store]
  simp

theorem rangeAssign_nil (m : Option GoMap) : rangeAssign m [] = some m := by
  cases m <;> rfl

theorem rangeAssign_some (ps : Params) :
    ∀ es : GoMap, rangeAssign (some es) ps
      = some (some (ps.foldl (fun es q => GoMap.store es q.key q.value) es)) := by
  induction ps with
  | nil => intro es; rfl
  | cons q ps ih => intro es; simp [rangeAssign, mapassign, ih]

/-- The allocation guard makes the merge loop safe: it never panics and ends
with `mergeParams`. -/
theorem rangeAssign_guarded (m : Option GoMap) (ps : Params) :
    rangeAssign (if m = none ∧ ps.length > 0 then some [] else m) ps
      = some (mergeParams m ps) := by
  cases ps with
  | nil => simp [rangeAssign, mergeParams]
  | cons q ps =>
    cases m with
    | none => simp [rangeAssign_some, mergeParams]
    | some es => simp [rangeAssign_some, mergeParams]

theorem mapaccess_merge_other (m : Option GoMap) (ps : Params) (k : String)
    (h : ∀ q ∈ ps, q.key ≠ k) : mapaccess (mergeParams m ps) k = mapaccess m k := by
  unfold mergeParams
  split
  · rfl
  · simp only [mapaccess]
    rw [lookup_foldl_other k ps _ h]
    cases m <;> simp [GoMap.lookup]

theorem mapaccess_merge_last (m : Option GoMap) (k val : String) (pre post : Params)
    (hpost : ∀ q ∈ post, q.key ≠ k) :
    mapaccess (mergeParams m (pre ++ { key := k, value := val } :: post)) k = some val := by
  unfold mergeParams
  rw [if_neg (by simp)]
  simp only [mapaccess]
  exact lookup_foldl_last k val pre post _ hpost

/-- What `UpsertCommand.Run` does, in closed form: one `vault.Read`, one
`vault.Upsert` of the merged secret, result nil. -/
theorem UpsertCommand_Run_eq {σ : Type} (v : Vault σ) (u : UpsertCommand) (w : World σ) :
    UpsertCommand.Run v u w =
      (RunResult.returned none,
        (callUpsert v
          { baseSecret u (v.Read u.application w.vault).1.1 (v.Read u.application w.vault).1.2 with
            Parameters := mergeParams
              (baseSecret u (v.Read u.application w.vault).1.1
                (v.Read u.application w.vault).1.2).Parameters u.parameters }
          (callRead v u.application w).2).2) := by
  unfold UpsertCommand.Run
  simp only [callRead]
  generalize v.Read u.application w.vault = rd
  obtain ⟨⟨read, err⟩, st⟩ := rd
  obtain ⟨rapp, rusr, rpwd, rpar⟩ := read
  obtain ⟨fs, app, usr, pwd, ps⟩ := u
  cases err <;> cases rpar <;> cases ps <;> by_cases hu : usr = "" <;>
    by_cases hp : pwd = "" <;>
    simp [baseSecret, rangeAssign_some, rangeAssign_nil, mergeParams, hu, hp]

theorem UpsertCommand_Run_trace {σ : Type} (v : Vault σ) (u : UpsertCommand) (w : World σ) :
    (UpsertCommand.Run v u w).2.trace =
      w.trace ++ [Event.vaultRead u.application,
        Event.vaultUpsert
          { baseSecret u (v.Read u.application w.vault).1.1 (v.Read u.application w.vault).1.2 with
            Parameters := mergeParams
              (baseSecret u (v.Read u.application w.vault).1.1
                (v.Read u.application w.vault).1.2).Parameters u.parameters }] := by
  rw [UpsertCommand_Run_eq]
  simp [callUpsert, callRead]

/-- A key that occurs in `ps` has a last occurrence. -/
theorem last_occurrence (k : String) (ps : Params) (h : ∃ q ∈ ps, q.key = k) :
    ∃ (val : String) (pre post : Params),
      ps = pre ++ { key := k, value := val } :: post ∧ ∀ q ∈ post, q.key ≠ k := by
  induction ps with
  | nil => simp at h
  | cons q ps ih =>
    by_cases hin : ∃ r ∈ ps, r.key = k
    · obtain ⟨val, pre, post, hps, hpost⟩ := ih hin
      exact ⟨val, q :: pre, post, by simp [hps], hpost⟩
    · have hq : q.key = k := by
        obtain ⟨r, hr, hrk⟩ := h
        rcases List.mem_cons.mp hr with h1 | h1
        · rw [← h1]; exact hrk
        · exact absurd ⟨r, h1, hrk⟩ hin
      refine ⟨q.value, [], ps, ?_, ?_⟩
      · obtain ⟨qk, qv⟩ := q
        simp only at hq
        simp [hq]
      · intro r hr hrk
        exact hin ⟨r, hr, hrk⟩

/-- The events of `ReadCommand.Run`: the read, then three writes to standard
output when the read succeeded. -/
theorem Read_Run_events {σ : Type} (fmtV : Option GoMap → String) (v : Vault σ)
    (r : ReadCommand) (w : World σ) :
    (ReadCommand.Run fmtV v r w).1 = RunResult.returned (v.Read r.application w.vault).1.2 ∧
    ((v.Read r.application w.vault).1.2 ≠ none →
      (ReadCommand.Run fmtV v r w).2.trace = w.trace ++ [Event.vaultRead r.application]) ∧
    ((v.Read r.application w.vault).1.2 = none →
      (ReadCommand.Run fmtV v r w).2.trace =
        w.trace ++ [Event.vaultRead r.application,
          Event.stdout ("Username -> " ++ (v.Read r.application w.vault).1.1.Username ++ "\n"),
          Event.stdout ("Password -> " ++ (v.Read r.application w.vault).1.1.Password ++ "\n"),
          Event.stdout ("Params -> " ++ fmtV (v.Read r.application w.vault).1.1.Parameters
            ++ "\n")]) := by
  unfold ReadCommand.Run
  simp only [callRead, World.emit]
  generalize v.Read r.application w.vault = rd
  obtain ⟨⟨read, err⟩, st⟩ := rd
  cases err <;> simp

/-! ## The commands -/

/-- Claim C2: upsert merges the parameters by key into the stored secret.
When `vault.Read` succeeds with `s0`, the secret passed to `vault.Upsert` maps
every key that occurs in the supplied parameters to the value of its last
occurrence, and every other key as `s0.Parameters` did (same value, or
absent). -/
theorem Upsert_merges_parameters {σ : Type} (v : Vault σ) (u : UpsertCommand) (w : World σ)
    (s0 : Secret) (st : σ) (hread : v.Read u.application w.vault = ((s0, none), st)) :
    ∃ secret : Secret,
      (UpsertCommand.Run v u w).2.trace =
        w.trace ++ [Event.vaultRead u.application, Event.vaultUpsert secret] ∧
      (∀ (k val : String) (pre post : Params),
        u.parameters = pre ++ { key := k, value := val } :: post →
        (∀ q ∈ post, q.key ≠ k) → mapaccess secret.Parameters k = some val) ∧
      (∀ k : String, (∀ q ∈ u.parameters, q.key ≠ k) →
        mapaccess secret.Parameters k = mapaccess s0.Parameters k) := by
  refine ⟨_, UpsertCommand_Run_trace v u w, ?_, ?_⟩
  · intro k val pre post hps hpost
    simp only [hps]
    exact mapaccess_merge_last _ k val pre post hpost
  · intro k hk
    simp only [hread, baseSecret]
    exact mapaccess_merge_other _ _ k hk

/-- Witness of C2, the example of the specification: the stored secret of
`app1` with the password `p2` and the parameters `env=staging`, `region=eu`. -/
theorem Upsert_merges_parameters_witness :
    (UpsertCommand.Init upsertCmd
        ["--application", "app1", "--password", "p2", "--parameter", "env=staging",
          "--parameter", "region=eu"]).2
      = upsertOf "app1" "" "p2" [⟨"env", "staging"⟩, ⟨"region", "eu"⟩] ∧
    (UpsertCommand.Run memVault
        (upsertOf "app1" "" "p2" [⟨"env", "staging"⟩, ⟨"region", "eu"⟩])
        { vault := [app1], trace := [] }).2.trace
      = [Event.vaultRead "app1",
         Event.vaultUpsert
          { Application := "app1", Username := "u1", Password := "p2",
            Parameters := some [("env", "staging"), ("region", "eu")] }] ∧
    ∃ secret : Secret,
      (UpsertCommand.Run memVault
          (upsertOf "app1" "" "p2" [⟨"env", "staging"⟩, ⟨"region", "eu"⟩])
          { vault := [app1], trace := [] }).2.trace
        = [] ++ [Event.vaultRead "app1", Event.vaultUpsert secret] ∧
      mapaccess secret.Parameters "env" = some "staging" ∧
      mapaccess secret.Parameters "region" = some "eu" ∧
      mapaccess secret.Parameters "other" = mapaccess app1.Parameters "other" := by
  refine ⟨rfl, rfl, ?_⟩
  obtain ⟨secret, htrace, hlast, hkeep⟩ :=
    Upsert_merges_parameters memVault
      (upsertOf "app1" "" "p2" [⟨"env", "staging"⟩, ⟨"region", "eu"⟩])
      { vault := [app1], trace := [] } app1 [app1] rfl
  refine ⟨secret, htrace, ?_, ?_, ?_⟩
  · exact hlast "env" "staging" [] [⟨"region", "eu"⟩] rfl (by decide)
  · exact hlast "region" "eu" [⟨"env", "staging"⟩] [] rfl (by decide)
  · exact hkeep "other" (by decide)

/-- Claim C3: on an existing application upsert decides the two credentials
field by field.  When `vault.Read` succeeds with `s0`, the secret passed to
`vault.Upsert` has the username of the command if it is non-empty and that of
`s0` otherwise, likewise for the password, and the application of `s0`. -/
theorem Upsert_existing_credentials {σ : Type} (v : Vault σ) (u : UpsertCommand)
    (w : World σ) (s0 : Secret) (st : σ)
    (hread : v.Read u.application w.vault = ((s0, none), st)) :
    ∃ secret : Secret,
      (UpsertCommand.Run v u w).2.trace =
        w.trace ++ [Event.vaultRead u.application, Event.vaultUpsert secret] ∧
      secret.Username = (if u.username ≠ "" then u.username else s0.Username) ∧
      secret.Password = (if u.password ≠ "" then u.password else s0.Password) ∧
      secret.Application = s0.Application := by
  refine ⟨_, UpsertCommand_Run_trace v u w, ?_, ?_, ?_⟩ <;> simp only [hread, baseSecret]

/-- Witness of C3: the username flag omitted and the password `p2` supplied,
on the stored secret of `app1`. -/
theorem Upsert_existing_credentials_witness :
    ∃ secret : Secret,
      (UpsertCommand.Run memVault (upsertOf "app1" "" "p2" [])
          { vault := [app1], trace := [] }).2.trace
        = [] ++ [Event.vaultRead "app1", Event.vaultUpsert secret] ∧
      secret.Username = (if "" ≠ "" then "" else "u1") ∧
      secret.Password = (if "p2" ≠ "" then "p2" else "p1") ∧
      secret.Application = "app1" :=
  Upsert_existing_credentials memVault (upsertOf "app1" "" "p2" [])
    { vault := [app1], trace := [] } app1 [app1] rfl

/-- Claim C4: on an absent application upsert creates the secret from what
was supplied.  When `vault.Read` fails, `Run` does not panic and the secret
passed to `vault.Upsert` has the application, username and password of the
command; its map is nil when no parameter was supplied, its keys are exactly
the keys of the supplied parameters, and each key holds the value of its last
occurrence. -/
theorem Upsert_absent_creates {σ : Type} (v : Vault σ) (u : UpsertCommand) (w : World σ)
    (e : GoError) (hread : (v.Read u.application w.vault).1.2 = some e) :
    (UpsertCommand.Run v u w).1 = RunResult.returned none ∧
    ∃ secret : Secret,
      (UpsertCommand.Run v u w).2.trace =
        w.trace ++ [Event.vaultRead u.application, Event.vaultUpsert secret] ∧
      secret.Application = u.application ∧
      secret.Username = u.username ∧
      secret.Password = u.password ∧
      (u.parameters = [] → secret.Parameters = none) ∧
      (∀ k : String, (mapaccess secret.Parameters k).isSome ↔ ∃ q ∈ u.parameters, q.key = k) ∧
      (∀ (k val : String) (pre post : Params),
        u.parameters = pre ++ { key := k, value := val } :: post →
        (∀ q ∈ post, q.key ≠ k) → mapaccess secret.Parameters k = some val) := by
  refine ⟨by rw [UpsertCommand_Run_eq], _, UpsertCommand_Run_trace v u w, ?_, ?_, ?_, ?_, ?_, ?_⟩
  · simp only [hread, baseSecret]
  · simp only [hread, baseSecret]
  · simp only [hread, baseSecret]
  · intro hps
    simp [hread, baseSecret, mergeParams, hps]
  · intro k
    simp only [hread, baseSecret]
    constructor
    · intro hsome
      by_contra hno
      have hk : ∀ q ∈ u.parameters, q.key ≠ k := fun q hq hqk => hno ⟨q, hq, hqk⟩
      rw [mapaccess_merge_other none u.parameters k hk] at hsome
      simp [mapaccess] at hsome
    · intro hex
      obtain ⟨val, pre, post, hps, hpost⟩ := last_occurrence k u.parameters hex
      rw [hps, mapaccess_merge_last none k val pre post hpost]
      rfl
  · intro k val pre post hps hpost
    simp only [hps]
    exact mapaccess_merge_last _ k val pre post hpost

/-- Witness of C4: `app2` is absent from the vault; the key `a` is supplied
twice. -/
theorem Upsert_absent_creates_witness :
    (UpsertCommand.Run memVault (upsertOf "app2" "u" "" [⟨"a", "1"⟩, ⟨"a", "2"⟩])
        { vault := [app1], trace := [] }).2.trace
      = [Event.vaultRead "app2",
         Event.vaultUpsert
          { Application := "app2", Username := "u", Password := "",
            Parameters := some [("a", "2")] }] ∧
    (UpsertCommand.Run memVault (upsertOf "app2" "u" "" [])
        { vault := [app1], trace := [] }).2.trace
      = [Event.vaultRead "app2",
         Event.vaultUpsert
          { Application := "app2", Username := "u", Password := "", Parameters := none }] ∧
    (UpsertCommand.Run memVault (upsertOf "app2" "u" "" [⟨"a", "1"⟩, ⟨"a", "2"⟩])
        { vault := [app1], trace := [] }).1 = RunResult.returned none :=
  ⟨rfl, rfl,
    (Upsert_absent_creates memVault (upsertOf "app2" "u" "" [⟨"a", "1"⟩, ⟨"a", "2"⟩])
      { vault := [app1], trace := [] } (GoError.errorsNew "not found") rfl).1⟩

/-- The keys of a map built from the nil map are exactly the keys of the
stored parameters. -/
theorem mapaccess_merge_keys (ps : Params) (k : String) :
    (mapaccess (mergeParams none ps) k).isSome ↔ ∃ q ∈ ps, q.key = k := by
  constructor
  · intro hsome
    by_contra hno
    have hk : ∀ q ∈ ps, q.key ≠ k := fun q hq hqk => hno ⟨q, hq, hqk⟩
    rw [mapaccess_merge_other none ps k hk] at hsome
    simp [mapaccess] at hsome
  · intro hex
    obtain ⟨val, pre, post, hps, hpost⟩ := last_occurrence k ps hex
    rw [hps, mapaccess_merge_last none k val pre post hpost]
    rfl

/-- Claim C7: `UpsertCommand.Run` never surfaces an error.  Whatever
`vault.Read` and `vault.Upsert` return, `Run` returns nil without a panic and
its calls to the vault are one `Read` followed by one `Upsert`; the vault is
left in the state after that `Upsert`, whose error is dropped.  A failed
`Read` is treated as "create new": the secret upserted is then built from the
application, username and password of the command and holds exactly the
supplied parameters.  After a successful `Read` the secret upserted is the
one read, with the non-empty credentials of the command written over it and
the supplied parameters merged into its map. -/
theorem Upsert_Run_returns_nil {σ : Type} (v : Vault σ) (u : UpsertCommand) (w : World σ) :
    (UpsertCommand.Run v u w).1 = RunResult.returned none ∧
    ∃ secret : Secret,
      (UpsertCommand.Run v u w).2.trace =
        w.trace ++ [Event.vaultRead u.application, Event.vaultUpsert secret] ∧
      (UpsertCommand.Run v u w).2.vault =
        (v.Upsert secret (v.Read u.application w.vault).2).2 ∧
      ((v.Read u.application w.vault).1.2 ≠ none →
        secret.Application = u.application ∧
        secret.Username = u.username ∧
        secret.Password = u.password ∧
        (u.parameters = [] → secret.Parameters = none) ∧
        (∀ k : String,
          (mapaccess secret.Parameters k).isSome ↔ ∃ q ∈ u.parameters, q.key = k) ∧
        (∀ (k val : String) (pre post : Params),
          u.parameters = pre ++ { key := k, value := val } :: post →
          (∀ q ∈ post, q.key ≠ k) → mapaccess secret.Parameters k = some val)) ∧
      ((v.Read u.application w.vault).1.2 = none →
        secret.Application = (v.Read u.application w.vault).1.1.Application ∧
        secret.Username =
          (if u.username ≠ "" then u.username
            else (v.Read u.application w.vault).1.1.Username) ∧
        secret.Password =
          (if u.password ≠ "" then u.password
            else (v.Read u.application w.vault).1.1.Password) ∧
        (u.parameters = [] →
          secret.Parameters = (v.Read u.application w.vault).1.1.Parameters) ∧
        (∀ k : String, (∀ q ∈ u.parameters, q.key ≠ k) →
          mapaccess secret.Parameters k =
            mapaccess (v.Read u.application w.vault).1.1.Parameters k) ∧
        (∀ (k val : String) (pre post : Params),
          u.parameters = pre ++ { key := k, value := val } :: post →
          (∀ q ∈ post, q.key ≠ k) → mapaccess secret.Parameters k = some val)) := by
  refine ⟨by rw [UpsertCommand_Run_eq], _, UpsertCommand_Run_trace v u w, ?_, ?_, ?_⟩
  · rw [UpsertCommand_Run_eq]
    simp [callUpsert, callRead]
  · intro hfail
    obtain ⟨e, he⟩ := Option.ne_none_iff_exists'.mp hfail
    refine ⟨?_, ?_, ?_, ?_, ?_, ?_⟩
    · simp only [he, baseSecret]
    · simp only [he, baseSecret]
    · simp only [he, baseSecret]
    · intro hps
      simp [he, baseSecret, mergeParams, hps]
    · intro k
      simp only [he, baseSecret]
      exact mapaccess_merge_keys u.parameters k
    · intro k val pre post hps hpost
      simp only [hps]
      exact mapaccess_merge_last _ k val pre post hpost
  · intro hok
    refine ⟨?_, ?_, ?_, ?_, ?_, ?_⟩
    · simp only [hok, baseSecret]
    · simp only [hok, baseSecret]
    · simp only [hok, baseSecret]
    · intro hps
      simp [hok, baseSecret, mergeParams, hps]
    · intro k hk
      simp only [hok, baseSecret]
      exact mapaccess_merge_other _ _ k hk
    · intro k val pre post hps hpost
      simp only [hps]
      exact mapaccess_merge_last _ k val pre post hpost

/-- Witness of C7: with a vault whose `Read` and `Upsert` both fail, `Run`
still returns nil after one `Upsert`, and the secret it upserts is the one
created from the command. -/
theorem Upsert_Run_returns_nil_witness :
    (failingVault.Upsert app1 []).1 = some (GoError.errorsNew "upsert failed") ∧
    (UpsertCommand.Run failingVault (upsertOf "app1" "u" "p" [⟨"env", "prod"⟩])
        { vault := [], trace := [] }).2.trace
      = [Event.vaultRead "app1",
         Event.vaultUpsert
          { Application := "app1", Username := "u", Password := "p",
            Parameters := some [("env", "prod")] }] ∧
    (UpsertCommand.Run failingVault (upsertOf "app1" "u" "p" [⟨"env", "prod"⟩])
        { vault := [], trace := [] }).1 = RunResult.returned none :=
  ⟨rfl, rfl, (Upsert_Run_returns_nil failingVault (upsertOf "app1" "u" "p" [⟨"env", "prod"⟩])
    { vault := [], trace := [] }).1⟩

/-- Claim C8: `ReadCommand.Run` passes the outcome of `vault.Read` through.
It returns exactly the error of `vault.Read` (nil when that is nil); when the
read fails nothing is written to standard output; when it succeeds with `s`,
three lines are written in this order: the username, the password and the
rendering of the parameters. -/
theorem Read_Run_passes_outcome {σ : Type} (fmtV : Option GoMap → String) (v : Vault σ)
    (r : ReadCommand) (w : World σ) :
    (ReadCommand.Run fmtV v r w).1 = RunResult.returned (v.Read r.application w.vault).1.2 ∧
    ((v.Read r.application w.vault).1.2 ≠ none →
      (ReadCommand.Run fmtV v r w).2.trace = w.trace ++ [Event.vaultRead r.application]) ∧
    ((v.Read r.application w.vault).1.2 = none →
      (ReadCommand.Run fmtV v r w).2.trace =
        w.trace ++ [Event.vaultRead r.application,
          Event.stdout ("Username -> " ++ (v.Read r.application w.vault).1.1.Username ++ "\n"),
          Event.stdout ("Password -> " ++ (v.Read r.application w.vault).1.1.Password ++ "\n"),
          Event.stdout ("Params -> " ++ fmtV (v.Read r.application w.vault).1.1.Parameters
            ++ "\n")]) := by
  exact Read_Run_events fmtV v r w

/-- Witness of C8: reading the stored `app1`, and reading an absent
application. -/
theorem Read_Run_passes_outcome_witness :
    (ReadCommand.Run showMap memVault { fsName := "read", application := "app1" }
        { vault := [app1], trace := [] }).2.trace
      = [] ++ [Event.vaultRead "app1", Event.stdout ("Username -> " ++ "u1" ++ "\n"),
          Event.stdout ("Password -> " ++ "p1" ++ "\n"),
          Event.stdout ("Params -> " ++ showMap (some [("env", "prod")]) ++ "\n")] ∧
    (ReadCommand.Run showMap memVault { fsName := "read", application := "missing" }
        { vault := [app1], trace := [] }).2.trace
      = [] ++ [Event.vaultRead "missing"] :=
  ⟨(Read_Run_passes_outcome showMap memVault { fsName := "read", application := "app1" }
      { vault := [app1], trace := [] }).2.2 rfl,
   (Read_Run_passes_outcome showMap memVault { fsName := "read", application := "missing" }
      { vault := [app1], trace := [] }).2.1 (by decide)⟩

/-! ## Package `flag`: `Parse` terminates -/

/-- An iteration of `Parse` that continues has consumed an argument. -/
theorem parseOne_consumes {τ : Type} (formal : List (Flag τ)) (args : List String) (c : τ)
    (h : (parseOne formal args c).1.1 = true) :
    (parseOne formal args c).2.1.length < args.length := by
  cases args with
  | nil => simp [parseOne] at h
  | cons s rest =>
    generalize hr : parseOne formal (s :: rest) c = r at h ⊢
    unfold parseOne at hr
    simp only [] at hr
    repeat' split at hr
    all_goals subst hr
    all_goals first
      | (simp at h; done)
      | (simp only [List.length_tail, List.length_cons]; omega)

/-- The loop of `Parse` ends within `args.length + 1` iterations. -/
theorem parseLoop_total {τ : Type} (formal : List (Flag τ)) :
    ∀ (fuel : Nat) (args : List String) (c : τ), args.length < fuel →
      ∃ r, parseLoop formal fuel args c = some r := by
  intro fuel
  induction fuel with
  | zero => intro args c h; omega
  | succ n ih =>
    intro args c h
    rw [parseLoop]
    by_cases hseen : (parseOne formal args c).1.1 = true
    · rw [if_pos hseen]
      have := parseOne_consumes formal args c hseen
      exact ih _ _ (by omega)
    · rw [if_neg hseen]
      exact ⟨_, rfl⟩

/-- The method `Parse` returns what its loop returns: the bound on the
iterations is never reached. -/
theorem Parse_returns {τ : Type} (formal : List (Flag τ)) (args : List String) (c : τ) :
    parseLoop formal (args.length + 1) args c = some (FlagSet.Parse formal args c) := by
  obtain ⟨r, hr⟩ := parseLoop_total formal (args.length + 1) args c (by omega)
  simp [FlagSet.Parse, hr]

/-! ## The dispatcher -/

theorem upper_read (ct : Char → Char) : stringsToUpper ct "read" = "READ" := rfl

theorem upper_upsert (ct : Char → Char) : stringsToUpper ct "upsert" = "UPSERT" := rfl

theorem upper_delete (ct : Char → Char) : stringsToUpper ct "delete" = "DELETE" := rfl

/-- Upper-casing keeps the three command names apart. -/
theorem names_upper_injective (ct : Char → Char) (a b : String) (ha : a ∈ commandNames)
    (hb : b ∈ commandNames) (h : stringsToUpper ct a = stringsToUpper ct b) : a = b := by
  simp only [commandNames, List.mem_cons, List.mem_singleton, List.mem_nil_iff, or_false] at ha hb
  rcases ha with rfl | rfl | rfl <;> rcases hb with rfl | rfl | rfl <;>
    first
      | rfl
      | (simp only [upper_read, upper_upsert, upper_delete] at h; exact absurd h (by decide))

/-- The events of a command's `Run` are calls to the vault and writes to
standard output: no command is started from inside a `Run`. -/
theorem Runner_Run_events {σ : Type} (fmtV : Option GoMap → String) (v : Vault σ)
    (c : Runner) (w : World σ) :
    ∃ evs, (Runner.Run fmtV v c w).2.trace = w.trace ++ evs ∧
      ∀ e ∈ evs, e.isInit = false ∧ e.isRun = false := by
  cases c with
  | read r =>
    simp only [Runner.Run]
    obtain ⟨_, hfail, hok⟩ := Read_Run_events fmtV v r w
    by_cases herr : (v.Read r.application w.vault).1.2 = none
    · exact ⟨_, hok herr, by simp [Event.isInit, Event.isRun]⟩
    · exact ⟨_, hfail herr, by simp [Event.isInit, Event.isRun]⟩
  | upsert u =>
    exact ⟨_, UpsertCommand_Run_trace v u w, by simp [Event.isInit, Event.isRun]⟩
  | delete d =>
    exact ⟨[Event.vaultDelete d.application], by simp [Runner.Run, DeleteCommand.Run, callDelete],
      by simp [Event.isInit, Event.isRun]⟩

/-- A command whose name does not match is passed over. -/
theorem dispatch_skip {σ : Type} (ct : Char → Char) (fmtV : Option GoMap → String)
    (v : Vault σ) (t : String) (rest : List String) (c : Runner) (more : List Runner)
    (w : World σ) (h : stringsToUpper ct c.Name ≠ stringsToUpper ct t) :
    dispatch ct fmtV v t rest (c :: more) w = dispatch ct fmtV v t rest more w := by
  rw [dispatch, if_neg h]

/-- The first command whose name matches is initialised and run, and no
other command is started. -/
theorem dispatch_match {σ : Type} (ct : Char → Char) (fmtV : Option GoMap → String)
    (v : Vault σ) (t : String) (rest : List String) (c : Runner) (more : List Runner)
    (w : World σ) (h : stringsToUpper ct c.Name = stringsToUpper ct t) :
    ∃ evs, (dispatch ct fmtV v t rest (c :: more) w).world.trace =
        w.trace ++ Event.cmdInit c.Name :: Event.cmdRun c.Name :: evs ∧
      ∀ e ∈ evs, e.isInit = false ∧ e.isRun = false := by
  obtain ⟨evs, hevs, hno⟩ := Runner_Run_events fmtV v (c.Init rest).2
    ((w.emit (Event.cmdInit c.Name)).emit (Event.cmdRun c.Name))
  simp only [World.emit, List.append_assoc, List.cons_append, List.nil_append] at hevs
  rw [dispatch, if_pos h]
  simp only []
  split
  · rename_i err _
    refine ⟨evs ++ [Event.logFatal "Error executing command" err], ?_, ?_⟩
    · simp [World.emit, hevs]
    · intro e he
      rcases List.mem_append.mp he with h1 | h1
      · exact hno e h1
      · simp only [List.mem_singleton] at h1
        subst h1
        exact ⟨rfl, rfl⟩
  · refine ⟨evs ++ [Event.vaultClose], ?_, ?_⟩
    · simp [World.emit, callClose, hevs]
    · intro e he
      rcases List.mem_append.mp he with h1 | h1
      · exact hno e h1
      · simp only [List.mem_singleton] at h1
        subst h1
        exact ⟨rfl, rfl⟩
  · refine ⟨evs ++ [Event.vaultClose], ?_, ?_⟩
    · simp [World.emit, callClose, hevs]
    · intro e he
      rcases List.mem_append.mp he with h1 | h1
      · exact hno e h1
      · simp only [List.mem_singleton] at h1
        subst h1
        exact ⟨rfl, rfl⟩

/-- What the events of a selected command say about which commands started. -/
theorem selected_props (ct : Char → Char) (t name0 : String) (evs : List Event)
    (hmem : name0 ∈ commandNames) (hmatch : stringsToUpper ct name0 = stringsToUpper ct t)
    (hno : ∀ e ∈ evs, e.isInit = false ∧ e.isRun = false) :
    (∀ name, Event.cmdInit name ∈ Event.cmdInit name0 :: Event.cmdRun name0 :: evs ↔
      name ∈ commandNames ∧ stringsToUpper ct name = stringsToUpper ct t) ∧
    (∀ name, Event.cmdRun name ∈ Event.cmdInit name0 :: Event.cmdRun name0 :: evs ↔
      name ∈ commandNames ∧ stringsToUpper ct name = stringsToUpper ct t) ∧
    (Event.cmdInit name0 :: Event.cmdRun name0 :: evs).countP Event.isInit ≤ 1 ∧
    (Event.cmdInit name0 :: Event.cmdRun name0 :: evs).countP Event.isRun ≤ 1 := by
  have hinit : evs.countP Event.isInit = 0 := by
    rw [List.countP_eq_zero]
    intro e he
    simp [(hno e he).1]
  have hrun : evs.countP Event.isRun = 0 := by
    rw [List.countP_eq_zero]
    intro e he
    simp [(hno e he).2]
  have hname : ∀ name, (name ∈ commandNames ∧ stringsToUpper ct name = stringsToUpper ct t) ↔
      name = name0 := by
    intro name
    constructor
    · rintro ⟨h1, h2⟩
      exact names_upper_injective ct name name0 h1 hmem (h2.trans hmatch.symm)
    · rintro rfl
      exact ⟨hmem, hmatch⟩
  refine ⟨?_, ?_, ?_, ?_⟩
  · intro name
    rw [hname]
    constructor
    · intro h
      rcases List.mem_cons.mp h with h1 | h1
      · injection h1
      · rcases List.mem_cons.mp h1 with h2 | h2
        · cases h2
        · have := (hno _ h2).1
          simp [Event.isInit] at this
    · rintro rfl
      exact List.mem_cons_self _ _
  · intro name
    rw [hname]
    constructor
    · intro h
      rcases List.mem_cons.mp h with h1 | h1
      · cases h1
      · rcases List.mem_cons.mp h1 with h2 | h2
        · injection h2
        · have := (hno _ h2).2
          simp [Event.isRun] at this
    · rintro rfl
      exact List.mem_cons_of_mem _ (List.mem_cons_self _ _)
  · simp [List.countP_cons, Event.isInit, hinit]
  · simp [List.countP_cons, Event.isRun, hrun]

theorem main_opened {σ : Type} (ct : Char → Char) (fmtV : Option GoMap → String)
    (v : Vault σ) (prog t : String) (rest : List String) (w : World σ)
    (hopen : (v.Open w.vault).1 = none) :
    main ct fmtV v (prog :: t :: rest) w =
      dispatch ct fmtV v t rest cmds
        { vault := (v.Open w.vault).2, trace := w.trace ++ [Event.vaultOpen] } := by
  simp only [main, callOpen, hopen]

/-- The process when the first command of the list matches the token: its
`Init` is called on the remaining arguments, its `Run` is called on the
initialised command, and the result of `Run` decides how the process ends. -/
theorem dispatch_selected {σ : Type} (ct : Char → Char) (fmtV : Option GoMap → String)
    (v : Vault σ) (t : String) (rest : List String) (c : Runner) (more : List Runner)
    (w : World σ) (h : stringsToUpper ct c.Name = stringsToUpper ct t) :
    dispatch ct fmtV v t rest (c :: more) w =
      match (Runner.Run fmtV v (c.Init rest).2
        ((w.emit (Event.cmdInit c.Name)).emit (Event.cmdRun c.Name))).1 with
      | RunResult.returned (some err) =>
        { status := 1,
          world := (Runner.Run fmtV v (c.Init rest).2
            ((w.emit (Event.cmdInit c.Name)).emit (Event.cmdRun c.Name))).2.emit
              (Event.logFatal "Error executing command" err) }
      | RunResult.returned none =>
        { status := 0,
          world := callClose v (Runner.Run fmtV v (c.Init rest).2
            ((w.emit (Event.cmdInit c.Name)).emit (Event.cmdRun c.Name))).2 }
      | RunResult.panicked _ =>
        { status := 2,
          world := callClose v (Runner.Run fmtV v (c.Init rest).2
            ((w.emit (Event.cmdInit c.Name)).emit (Event.cmdRun c.Name))).2 } := by
  rw [dispatch, if_pos h]

/-- With the token matching `read`, the process is the `Run` of `readCmd`
after its `Init`. -/
theorem main_read {σ : Type} (ct : Char → Char) (fmtV : Option GoMap → String)
    (v : Vault σ) (prog t : String) (rest : List String) (w : World σ)
    (hopen : (v.Open w.vault).1 = none)
    (h : stringsToUpper ct "read" = stringsToUpper ct t) :
    main ct fmtV v (prog :: t :: rest) w =
      match (ReadCommand.Run fmtV v (ReadCommand.Init readCmd rest).2 (started v w "read")).1 with
      | RunResult.returned (some err) =>
        { status := 1,
          world := (ReadCommand.Run fmtV v (ReadCommand.Init readCmd rest).2
            (started v w "read")).2.emit (Event.logFatal "Error executing command" err) }
      | RunResult.returned none =>
        { status := 0,
          world := callClose v (ReadCommand.Run fmtV v (ReadCommand.Init readCmd rest).2
            (started v w "read")).2 }
      | RunResult.panicked _ =>
        { status := 2,
          world := callClose v (ReadCommand.Run fmtV v (ReadCommand.Init readCmd rest).2
            (started v w "read")).2 } := by
  rw [main_opened ct fmtV v prog t rest w hopen]
  simp only [cmds]
  rw [dispatch_selected ct fmtV v t rest (Runner.read readCmd) _ _ h]
  rfl

/-- With the token matching `upsert`, the process is the `Run` of `upsertCmd`
after its `Init`. -/
theorem main_upsert {σ : Type} (ct : Char → Char) (fmtV : Option GoMap → String)
    (v : Vault σ) (prog t : String) (rest : List String) (w : World σ)
    (hopen : (v.Open w.vault).1 = none)
    (h : stringsToUpper ct "upsert" = stringsToUpper ct t) :
    main ct fmtV v (prog :: t :: rest) w =
      match (UpsertCommand.Run v (UpsertCommand.Init upsertCmd rest).2
        (started v w "upsert")).1 with
      | RunResult.returned (some err) =>
        { status := 1,
          world := (UpsertCommand.Run v (UpsertCommand.Init upsertCmd rest).2
            (started v w "upsert")).2.emit (Event.logFatal "Error executing command" err) }
      | RunResult.returned none =>
        { status := 0,
          world := callClose v (UpsertCommand.Run v (UpsertCommand.Init upsertCmd rest).2
            (started v w "upsert")).2 }
      | RunResult.panicked _ =>
        { status := 2,
          world := callClose v (UpsertCommand.Run v (UpsertCommand.Init upsertCmd rest).2
            (started v w "upsert")).2 } := by
  have h1 : stringsToUpper ct (Runner.read readCmd).Name ≠ stringsToUpper ct t := by
    intro h1
    have := names_upper_injective ct "read" "upsert" (by simp [commandNames])
      (by simp [commandNames]) (h1.trans h.symm)
    exact absurd this (by decide)
  rw [main_opened ct fmtV v prog t rest w hopen]
  simp only [cmds]
  rw [dispatch_skip ct fmtV v t rest (Runner.read readCmd) _ _ h1,
    dispatch_selected ct fmtV v t rest (Runner.upsert upsertCmd) _ _ h]
  rfl

/-- With the token matching `delete`, the process is the `Run` of `deleteCmd`
after its `Init`. -/
theorem main_delete {σ : Type} (ct : Char → Char) (fmtV : Option GoMap → String)
    (v : Vault σ) (prog t : String) (rest : List String) (w : World σ)
    (hopen : (v.Open w.vault).1 = none)
    (h : stringsToUpper ct "delete" = stringsToUpper ct t) :
    main ct fmtV v (prog :: t :: rest) w =
      match (DeleteCommand.Run v (DeleteCommand.Init deleteCmd rest).2
        (started v w "delete")).1 with
      | RunResult.returned (some err) =>
        { status := 1,
          world := (DeleteCommand.Run v (DeleteCommand.Init deleteCmd rest).2
            (started v w "delete")).2.emit (Event.logFatal "Error executing command" err) }
      | RunResult.returned none =>
        { status := 0,
          world := callClose v (DeleteCommand.Run v (DeleteCommand.Init deleteCmd rest).2
            (started v w "delete")).2 }
      | RunResult.panicked _ =>
        { status := 2,
          world := callClose v (DeleteCommand.Run v (DeleteCommand.Init deleteCmd rest).2
            (started v w "delete")).2 } := by
  have h1 : stringsToUpper ct (Runner.read readCmd).Name ≠ stringsToUpper ct t := by
    intro h1
    have := names_upper_injective ct "read" "delete" (by simp [commandNames])
      (by simp [commandNames]) (h1.trans h.symm)
    exact absurd this (by decide)
  have h2 : stringsToUpper ct (Runner.upsert upsertCmd).Name ≠ stringsToUpper ct t := by
    intro h2
    have := names_upper_injective ct "upsert" "delete" (by simp [commandNames])
      (by simp [commandNames]) (h2.trans h.symm)
    exact absurd this (by decide)
  rw [main_opened ct fmtV v prog t rest w hopen]
  simp only [cmds]
  rw [dispatch_skip ct fmtV v t rest (Runner.read readCmd) _ _ h1,
    dispatch_skip ct fmtV v t rest (Runner.upsert upsertCmd) _ _ h2,
    dispatch_selected ct fmtV v t rest (Runner.delete deleteCmd) _ _ h]
  rfl

/-- A failing `vault.Open` ends the process with status 1 before the loop
over the commands. -/
theorem main_open_fails {σ : Type} (ct : Char → Char) (fmtV : Option GoMap → String)
    (v : Vault σ) (prog t : String) (rest : List String) (w : World σ) (err : GoError)
    (hopen : (v.Open w.vault).1 = some err) :
    main ct fmtV v (prog :: t :: rest) w =
      { status := 1,
        world := { vault := (v.Open w.vault).2,
                   trace := w.trace ++ [Event.vaultOpen,
                     Event.logFatal "Error opening vault" err] } } := by
  simp [main, callOpen, hopen, World.emit]

/-- Counterexample to C9: the token `bogus` matches no command, yet with a
vault that cannot be opened the process ends with exit status 1. -/
theorem unmatched_token_exit_nonzero :
    (∀ name ∈ commandNames, stringsToUpper id name ≠ stringsToUpper id "bogus") ∧
    (main id showMap closedVault ["smcli", "bogus"] { vault := [], trace := [] }).status = 1 ∧
    (main id showMap closedVault ["smcli", "bogus"] { vault := [], trace := [] }).world.trace
      = [Event.vaultOpen,
         Event.logFatal "Error opening vault" (GoError.errorsNew "vault unavailable")] :=
  ⟨by decide, rfl, rfl⟩

/-- After a successful `vault.Open`, a command is initialised, and run,
exactly when it is one of the three and its upper-cased name equals the
upper-cased token; at most one is started; with no match the vault is closed
and the status is 0. -/
theorem dispatcher_markers {σ : Type} (ct : Char → Char) (fmtV : Option GoMap → String)
    (v : Vault σ) (prog t : String) (rest : List String) (w : World σ)
    (hopen : (v.Open w.vault).1 = none) :
    ∃ evs, (main ct fmtV v (prog :: t :: rest) w).world.trace
        = w.trace ++ Event.vaultOpen :: evs ∧
      (∀ name, Event.cmdInit name ∈ evs ↔
        name ∈ commandNames ∧ stringsToUpper ct name = stringsToUpper ct t) ∧
      (∀ name, Event.cmdRun name ∈ evs ↔
        name ∈ commandNames ∧ stringsToUpper ct name = stringsToUpper ct t) ∧
      evs.countP Event.isInit ≤ 1 ∧ evs.countP Event.isRun ≤ 1 ∧
      ((∀ name ∈ commandNames, stringsToUpper ct name ≠ stringsToUpper ct t) →
        evs = [Event.vaultClose] ∧ (main ct fmtV v (prog :: t :: rest) w).status = 0) ∧
      (∀ t' ∈ ["READ", "Read", "read"], stringsToUpper ct "read" = stringsToUpper ct t') := by
  have hex : ∀ t' ∈ ["READ", "Read", "read"],
      stringsToUpper ct "read" = stringsToUpper ct t' := by
    intro t' ht'
    simp only [List.mem_cons, List.mem_singleton, List.mem_nil_iff, or_false] at ht'
    rcases ht' with rfl | rfl | rfl <;> rfl
  rw [main_opened ct fmtV v prog t rest w hopen]
  simp only [cmds]
  by_cases h1 : stringsToUpper ct "read" = stringsToUpper ct t
  · obtain ⟨evs, hevs, hno⟩ := dispatch_match ct fmtV v t rest
      (Runner.read readCmd) [Runner.upsert upsertCmd, Runner.delete deleteCmd]
      { vault := (v.Open w.vault).2, trace := w.trace ++ [Event.vaultOpen] } h1
    obtain ⟨p1, p2, p3, p4⟩ := selected_props ct t "read" evs (by simp [commandNames]) h1 hno
    refine ⟨_, ?_, p1, p2, p3, p4, ?_, hex⟩
    · rw [hevs]; simp [Runner.Name, readCmd, upsertCmd, deleteCmd]
    · intro hnone
      exact absurd h1 (hnone "read" (by simp [commandNames]))
  · rw [dispatch_skip ct fmtV v t rest (Runner.read readCmd) _ _ h1]
    by_cases h2 : stringsToUpper ct "upsert" = stringsToUpper ct t
    · obtain ⟨evs, hevs, hno⟩ := dispatch_match ct fmtV v t rest
        (Runner.upsert upsertCmd) [Runner.delete deleteCmd]
        { vault := (v.Open w.vault).2, trace := w.trace ++ [Event.vaultOpen] } h2
      obtain ⟨p1, p2, p3, p4⟩ :=
        selected_props ct t "upsert" evs (by simp [commandNames]) h2 hno
      refine ⟨_, ?_, p1, p2, p3, p4, ?_, hex⟩
      · rw [hevs]; simp [Runner.Name, readCmd, upsertCmd, deleteCmd]
      · intro hnone
        exact absurd h2 (hnone "upsert" (by simp [commandNames]))
    · rw [dispatch_skip ct fmtV v t rest (Runner.upsert upsertCmd) _ _ h2]
      by_cases h3 : stringsToUpper ct "delete" = stringsToUpper ct t
      · obtain ⟨evs, hevs, hno⟩ := dispatch_match ct fmtV v t rest
          (Runner.delete deleteCmd) []
          { vault := (v.Open w.vault).2, trace := w.trace ++ [Event.vaultOpen] } h3
        obtain ⟨p1, p2, p3, p4⟩ :=
          selected_props ct t "delete" evs (by simp [commandNames]) h3 hno
        refine ⟨_, ?_, p1, p2, p3, p4, ?_, hex⟩
        · rw [hevs]; simp [Runner.Name, readCmd, upsertCmd, deleteCmd]
        · intro hnone
          exact absurd h3 (hnone "delete" (by simp [commandNames]))
      · rw [dispatch_skip ct fmtV v t rest (Runner.delete deleteCmd) _ _ h3]
        have hnomatch : ∀ name, ¬ (name ∈ commandNames ∧
            stringsToUpper ct name = stringsToUpper ct t) := by
          rintro name ⟨hmem, hm⟩
          simp only [commandNames, List.mem_cons, List.mem_singleton, List.mem_nil_iff,
            or_false] at hmem
          rcases hmem with rfl | rfl | rfl
          · exact h1 hm
          · exact h2 hm
          · exact h3 hm
        refine ⟨[Event.vaultClose], ?_, ?_, ?_, ?_, ?_, ?_, hex⟩
        · simp [dispatch, callClose]
        · intro name
          simp [hnomatch name]
        · intro name
          simp [hnomatch name]
        · simp [Event.isInit]
        · simp [Event.isRun]
        · intro _
          exact ⟨rfl, by simp [dispatch]⟩

/-- Claim C9, amended: provided `vault.Open` succeeds, the dispatcher maps the
subcommand token to at most one command, case-insensitively.  When
`vault.Open` fails the process ends with status 1 right after the open,
whatever the token.  When it succeeds: a command is initialised, and run,
exactly when it is one of `read`, `upsert`, `delete` and its name equals the
token after upper-casing both, and at most one `Init` and one `Run` are
started; when no name matches, the only event is the close of the vault and
the exit status is 0; when the name of `read` (of `upsert`, of `delete`)
matches, what is executed is the `Init` of that command on the remaining
arguments followed by its `Run` on the initialised command, and the process
ends with the close of the vault and status 0 when `Run` returns nil, with the
fatal log and status 1 when it returns an error.  `READ`, `Read` and `read`
all select `read`. -/
theorem dispatcher_selects {σ : Type} (ct : Char → Char) (fmtV : Option GoMap → String)
    (v : Vault σ) (prog t : String) (rest : List String) (w : World σ) :
    (∀ err, (v.Open w.vault).1 = some err →
      main ct fmtV v (prog :: t :: rest) w =
        { status := 1,
          world := { vault := (v.Open w.vault).2,
                     trace := w.trace ++ [Event.vaultOpen,
                       Event.logFatal "Error opening vault" err] } }) ∧
    ((v.Open w.vault).1 = none →
      (∃ evs, (main ct fmtV v (prog :: t :: rest) w).world.trace
          = w.trace ++ Event.vaultOpen :: evs ∧
        (∀ name, Event.cmdInit name ∈ evs ↔
          name ∈ commandNames ∧ stringsToUpper ct name = stringsToUpper ct t) ∧
        (∀ name, Event.cmdRun name ∈ evs ↔
          name ∈ commandNames ∧ stringsToUpper ct name = stringsToUpper ct t) ∧
        evs.countP Event.isInit ≤ 1 ∧ evs.countP Event.isRun ≤ 1 ∧
        ((∀ name ∈ commandNames, stringsToUpper ct name ≠ stringsToUpper ct t) →
          evs = [Event.vaultClose] ∧ (main ct fmtV v (prog :: t :: rest) w).status = 0)) ∧
      (stringsToUpper ct "read" = stringsToUpper ct t →
        (∃ e, (ReadCommand.Run fmtV v (ReadCommand.Init readCmd rest).2
            (started v w "read")).1 = RunResult.returned e) ∧
        (∀ err, (ReadCommand.Run fmtV v (ReadCommand.Init readCmd rest).2
            (started v w "read")).1 = RunResult.returned (some err) →
          main ct fmtV v (prog :: t :: rest) w =
            { status := 1,
              world := (ReadCommand.Run fmtV v (ReadCommand.Init readCmd rest).2
                (started v w "read")).2.emit
                  (Event.logFatal "Error executing command" err) }) ∧
        ((ReadCommand.Run fmtV v (ReadCommand.Init readCmd rest).2
            (started v w "read")).1 = RunResult.returned none →
          main ct fmtV v (prog :: t :: rest) w =
            { status := 0,
              world := callClose v (ReadCommand.Run fmtV v (ReadCommand.Init readCmd rest).2
                (started v w "read")).2 })) ∧
      (stringsToUpper ct "upsert" = stringsToUpper ct t →
        main ct fmtV v (prog :: t :: rest) w =
          { status := 0,
            world := callClose v (UpsertCommand.Run v (UpsertCommand.Init upsertCmd rest).2
              (started v w "upsert")).2 }) ∧
      (stringsToUpper ct "delete" = stringsToUpper ct t →
        (∃ e, (DeleteCommand.Run v (DeleteCommand.Init deleteCmd rest).2
            (started v w "delete")).1 = RunResult.returned e) ∧
        (∀ err, (DeleteCommand.Run v (DeleteCommand.Init deleteCmd rest).2
            (started v w "delete")).1 = RunResult.returned (some err) →
          main ct fmtV v (prog :: t :: rest) w =
            { status := 1,
              world := (DeleteCommand.Run v (DeleteCommand.Init deleteCmd rest).2
                (started v w "delete")).2.emit
                  (Event.logFatal "Error executing command" err) }) ∧
        ((DeleteCommand.Run v (DeleteCommand.Init deleteCmd rest).2
            (started v w "delete")).1 = RunResult.returned none →
          main ct fmtV v (prog :: t :: rest) w =
            { status := 0,
              world := callClose v (DeleteCommand.Run v (DeleteCommand.Init deleteCmd rest).2
                (started v w "delete")).2 }))) ∧
    (∀ t' ∈ ["READ", "Read", "read"], stringsToUpper ct "read" = stringsToUpper ct t') := by
  refine ⟨fun err hopen => main_open_fails ct fmtV v prog t rest w err hopen, ?_, ?_⟩
  · intro hopen
    obtain ⟨evs, h1, h2, h3, h4, h5, h6, _⟩ := dispatcher_markers ct fmtV v prog t rest w hopen
    refine ⟨⟨evs, h1, h2, h3, h4, h5, h6⟩, ?_, ?_, ?_⟩
    · intro h
      refine ⟨⟨_, (Read_Run_events fmtV v _ _).1⟩, ?_, ?_⟩
      · intro err hr
        rw [main_read ct fmtV v prog t rest w hopen h]
        simp only [hr]
      · intro hr
        rw [main_read ct fmtV v prog t rest w hopen h]
        simp only [hr]
    · intro h
      rw [main_upsert ct fmtV v prog t rest w hopen h]
      simp only [UpsertCommand_Run_eq]
    · intro h
      refine ⟨⟨_, rfl⟩, ?_, ?_⟩
      · intro err hr
        rw [main_delete ct fmtV v prog t rest w hopen h]
        simp only [hr]
      · intro hr
        rw [main_delete ct fmtV v prog t rest w hopen h]
        simp only [hr]
  · intro t' ht'
    simp only [List.mem_cons, List.mem_singleton, List.mem_nil_iff, or_false] at ht'
    rcases ht' with rfl | rfl | rfl <;> rfl

/-- Witness of C9 as amended: the token `READ` on the in-memory vault selects
`read`, whose `Run` prints the stored secret of `app1`; on a vault that cannot
be opened the token `upsert` ends the process with status 1. -/
theorem dispatcher_selects_witness :
    main id showMap memVault ("smcli" :: "READ" :: ["--application", "app1"])
        { vault := [app1], trace := [] }
      = { status := 0,
          world := callClose memVault
            (ReadCommand.Run showMap memVault
              (ReadCommand.Init readCmd ["--application", "app1"]).2
              (started memVault { vault := [app1], trace := [] } "read")).2 } ∧
    (main id showMap memVault ("smcli" :: "READ" :: ["--application", "app1"])
        { vault := [app1], trace := [] }).world.trace
      = [Event.vaultOpen, Event.cmdInit "read", Event.cmdRun "read", Event.vaultRead "app1",
         Event.stdout "Username -> u1\n", Event.stdout "Password -> p1\n",
         Event.stdout "Params -> map[env:prod]\n", Event.vaultClose] ∧
    main id showMap closedVault ("smcli" :: "upsert" :: ["--application", "app1"])
        { vault := [app1], trace := [] }
      = { status := 1,
          world := { vault := [app1],
                     trace := [] ++ [Event.vaultOpen,
                       Event.logFatal "Error opening vault"
                         (GoError.errorsNew "vault unavailable")] } } :=
  ⟨(((dispatcher_selects id showMap memVault "smcli" "READ" ["--application", "app1"]
      { vault := [app1], trace := [] }).2.1 rfl).2.1 rfl).2.2 rfl,
   rfl,
   (dispatcher_selects id showMap closedVault "smcli" "upsert" ["--application", "app1"]
      { vault := [app1], trace := [] }).1 (GoError.errorsNew "vault unavailable") rfl⟩

/-- Claim C6, evaluated where the code departs from it: `upsert` with the
parameter `bad`.  `Init` returns the error of `Params.Set`, `main` drops it,
and `Run` is executed: the vault is read and written, and the exit status
is 0. -/
theorem failing_Init_still_runs :
    (UpsertCommand.Init upsertCmd
        ["--application", "app1", "--parameter", "bad"]).1
      = some (GoError.flagInvalidValue "bad" "parameter" invalidParameter) ∧
    (main id showMap memVault ["smcli", "upsert", "--application", "app1", "--parameter", "bad"]
        { vault := [app1], trace := [] }).status = 0 ∧
    (main id showMap memVault ["smcli", "upsert", "--application", "app1", "--parameter", "bad"]
        { vault := [app1], trace := [] }).world.trace
      = [Event.vaultOpen, Event.cmdInit "upsert", Event.cmdRun "upsert",
         Event.vaultRead "app1", Event.vaultUpsert app1, Event.vaultClose] :=
  ⟨rfl, rfl, rfl⟩

/-- Claim C10, evaluated where the code departs from it: `read` of an absent
application.  The vault is opened, `Run` returns the error of `vault.Read`,
`log.Fatalf` ends the process with status 1, and `vault.Close` is never
called. -/
theorem Run_error_skips_Close :
    (main id showMap memVault ["smcli", "read", "--application", "missing"]
        { vault := [], trace := [] }).status = 1 ∧
    (main id showMap memVault ["smcli", "read", "--application", "missing"]
        { vault := [], trace := [] }).world.trace
      = [Event.vaultOpen, Event.cmdInit "read", Event.cmdRun "read",
         Event.vaultRead "missing",
         Event.logFatal "Error executing command" (GoError.errorsNew "not found")] ∧
    Event.vaultClose ∉
      (main id showMap memVault ["smcli", "read", "--application", "missing"]
        { vault := [], trace := [] }).world.trace :=
  ⟨rfl, rfl, by decide⟩

end SecretManagerCLI
